import Mathlib

/-!
A shallow embedding of the grid operator-automaton simulator (src/main.rs)
and proofs about its tick semantics and auxiliary codec.

Mutable state (the `Cell`-based grid) is modelled by explicit state passing:
a `Field` carries its dimensions and a total map from points to slots, and
each behavior takes the field (plus the current point) and returns the
updated field.  The per-tick scan is the row-major fold produced by
`MatrixIterator` (x fastest, then y).  The `panic!`/`expect` failure paths
are modelled with `Option` (`none` = abort).
-/

set_option maxRecDepth 4096

namespace Lyza

/-- `Point { x, y }` from `src/main.rs` (i32 coordinates, transiently negative). -/
structure Point where
  x : Int
  y : Int
deriving DecidableEq

def Point.new (x y : Int) : Point := { x := x, y := y }

def Point.zero : Point := { x := 0, y := 0 }

def Point.translate (p : Point) (x y : Int) : Point := { x := p.x + x, y := p.y + y }

instance : Add Point := ⟨fun a b => { x := a.x + b.x, y := a.y + b.y }⟩

instance : Sub Point := ⟨fun a b => { x := a.x - b.x, y := a.y - b.y }⟩

/-- `Slot { operator: Cell<char>, lock: Cell<bool> }`; the empty sentinel is `'\x00'`. -/
structure Slot where
  operator : Char
  lock : Bool
deriving DecidableEq

def Slot.is_clear (s : Slot) : Bool := s.operator == '\x00'

def Slot.explode (s : Slot) : Slot := { s with operator := '*' }

def Slot.clear (s : Slot) : Slot := { s with operator := '\x00' }

/-- `impl Default for Slot`. -/
def Slot.default : Slot := { operator := '\x00', lock := false }

/-- `Field` owning a `Matrix<Slot>`: the `width × height` grid is modelled as a
total map from points to slots (out-of-grid points are ghosts that the code
never reads or writes, since every access is bounds-checked by the callers). -/
structure Field where
  width : Nat
  height : Nat
  slots : Point → Slot

/-- `Field::new` / `Matrix::new`: all slots start as `Slot::default()`. -/
def Field.new (w h : Nat) : Field :=
  { width := w, height := h, slots := fun _ => Slot.default }

/-- `Field::ref_slot` / `Matrix::ref_idx`. -/
def Field.ref_slot (f : Field) (p : Point) : Slot := f.slots p

/-- In-place mutation of one slot through its `Cell`s. -/
def Field.set_slot (f : Field) (p : Point) (s : Slot) : Field :=
  { f with slots := fun q => if q = p then s else f.slots q }

/-- `Matrix::in_bounds` (same conjunct order as the source). -/
def Field.point_in_bounds (f : Field) (p : Point) : Bool :=
  decide (0 ≤ p.x) && decide (0 ≤ p.y) &&
    decide (p.x < (f.width : Int)) && decide (p.y < (f.height : Int))

/-- `Field::unlock_all`: every slot's lock is set to `false`. -/
def Field.unlock_all (f : Field) : Field :=
  { f with slots := fun q => { f.slots q with lock := false } }

/-- `slot.operator.set(c)` as used by the seeding driver in `main`. -/
def Field.set_op (f : Field) (p : Point) (c : Char) : Field :=
  f.set_slot p { f.ref_slot p with operator := c }

/-- One scan row: the points `(0, y) … (w-1, y)` in order. -/
def rowPts (w y : Nat) : List Point :=
  (List.range w).map (fun (x : Nat) => Point.new x y)

/-- The row-major visit order produced by `Matrix::indexed_iter`
(x runs fastest, then y). -/
def rowMajorPoints (w h : Nat) : List Point :=
  (List.range h).flatMap (fun (y : Nat) => rowPts w y)

def NORTH : Point := { x := 0, y := -1 }
def SOUTH : Point := { x := 0, y := 1 }
def EAST : Point := { x := 1, y := 0 }
def WEST : Point := { x := -1, y := 0 }

/-- `Opdef { long_name, operator, callback }`; a callback reads/writes the field,
given the currently processed point (`ctx.curr_point` in the source). -/
structure Opdef where
  long_name : String
  operator : Char
  callback : Field → Point → Field

/-- `OpdefTable(HashMap<char, Opdef>)`, modelled as an association list keyed by
`operator` (the default table inserts six distinct keys, so lookup agrees). -/
def OpdefTable : Type := List Opdef

/-- `OpdefTable::find`. -/
def OpdefTable.find (t : OpdefTable) (ch : Char) : Option Opdef :=
  List.find? (fun o => o.operator == ch) t

/-- `move_direction`: shared movement routine of E/W/N/S. -/
def move_direction (f : Field) (curr translate : Point) : Field :=
  let next := curr + translate
  if !(f.point_in_bounds next) || !((f.ref_slot next).is_clear) then
    f.set_slot curr { (f.ref_slot curr).explode with lock := true }
  else
    let f1 := f.set_slot next
      { f.ref_slot next with operator := (f.ref_slot curr).operator, lock := true }
    f1.set_slot curr { (f1.ref_slot curr).clear with lock := true }

/-- The `"bang"` (`'*'`) opdef: clear the current slot and lock it. -/
def bangDef : Opdef :=
  { long_name := "bang", operator := '*',
    callback := fun f curr => f.set_slot curr { (f.ref_slot curr).clear with lock := true } }

def eastDef : Opdef :=
  { long_name := "east", operator := 'E',
    callback := fun f curr => move_direction f curr EAST }

def westDef : Opdef :=
  { long_name := "west", operator := 'W',
    callback := fun f curr => move_direction f curr WEST }

def northDef : Opdef :=
  { long_name := "north", operator := 'N',
    callback := fun f curr => move_direction f curr NORTH }

def southDef : Opdef :=
  { long_name := "south", operator := 'S',
    callback := fun f curr => move_direction f curr SOUTH }

/-- The `"halt"` (`'H'`) opdef: lock the slot due south, when it is in bounds. -/
def haltDef : Opdef :=
  { long_name := "halt", operator := 'H',
    callback := fun f curr =>
      let next := curr + SOUTH
      if f.point_in_bounds next then f.set_slot next { f.ref_slot next with lock := true }
      else f }

/-- `impl Default for OpdefTable` (registration order as in the source). -/
def OpdefTable.default : OpdefTable :=
  [bangDef, eastDef, westDef, northDef, southDef, haltDef]

/-- `Context { opdef_table, field, curr_point, frame_ct }`. -/
structure Context where
  opdef_table : OpdefTable
  field : Field
  curr_point : Point
  frame_ct : Nat

def Context.new (t : OpdefTable) (f : Field) : Context :=
  { opdef_table := t, field := f, curr_point := Point.zero, frame_ct := 0 }

/-- The body of the `for` loop in `Context::process` for one visited point:
set `curr_point`, dispatch when the slot is unlocked and non-empty
(`.expect("operator not found")` = `none`), then bump `frame_ct`. -/
def processCell (ctx : Context) (pt : Point) : Option Context :=
  let c := { ctx with curr_point := pt }
  let op := (c.field.ref_slot pt).operator
  let lk := (c.field.ref_slot pt).lock
  if !lk && !(op == '\x00') then
    match c.opdef_table.find op with
    | none => none
    | some opd => some { c with field := opd.callback c.field pt, frame_ct := c.frame_ct + 1 }
  else
    some { c with frame_ct := c.frame_ct + 1 }

/-- `Context::process`: unlock everything, then fold the loop body over the
row-major scan order. -/
def Context.process (ctx : Context) : Option Context :=
  let c := { ctx with field := ctx.field.unlock_all }
  List.foldlM processCell c (rowMajorPoints c.field.width c.field.height)

/-- `ENCODE_TABLE` (the 64-character alphabet). -/
def ENCODE_TABLE : List Char :=
  "0123456789abcdefghijklmnopqrstuvwxyzABCDEFGHIJKLMNOPQRSTUVWXYZ?!".toList

/-- `DECODE_TABLE` after its one-time initialization: position `byte` holds the
alphabet index of `byte`, all other positions hold `0`. -/
def DECODE_TABLE : Nat → Nat :=
  ENCODE_TABLE.enum.foldl (fun tbl ib => fun c => if c = ib.2.toNat then ib.1 else tbl c)
    (fun _ => 0)

/-- `decode_base64`: indexing `DECODE_TABLE[ch as usize]` panics (`none`) when the
code point is at least 256 (the table has 256 entries). -/
def decode_base64 (ch : Char) : Option Nat :=
  if ch.toNat < 256 then some (DECODE_TABLE ch.toNat) else none

/-- `encode_base64`: `panic!("out of range")` (= `none`) when the value reaches the
alphabet's length. -/
def encode_base64 (n : Nat) : Option Char :=
  if ENCODE_TABLE.length ≤ n then none
  else some (ENCODE_TABLE.getD n '\x00')

/-- The recognized operator symbols together with the empty sentinel. -/
def recognizedOps : List Char := ['\x00', '*', 'E', 'W', 'N', 'S', 'H']

/-- Invariant: every in-bounds slot holds the empty sentinel or a recognized symbol. -/
def opInSet (f : Field) : Prop :=
  ∀ p : Point, f.point_in_bounds p = true → (f.ref_slot p).operator ∈ recognizedOps

/-- The scan-order points strictly before `(x, y)` in row-major order. -/
def beforePts (w x y : Nat) : List Point :=
  rowMajorPoints w y ++ (List.range x).map (fun (a : Nat) => Point.new a y)

/-- The scan-order points strictly after `(x, y)` in row-major order. -/
def afterPts (w h x y : Nat) : List Point :=
  (List.range (w - (x + 1))).map (fun (a : Nat) => Point.new (x + 1 + a) y)
    ++ (List.range (h - (y + 1))).flatMap (fun (b : Nat) => rowPts w (y + 1 + b))

/-- The seeded 10×15 field built by `main`. -/
def scenarioField : Field :=
  (((((Field.new 10 15).set_op (Point.new 0 0) '*').set_op
      (Point.new 3 3) 'E').set_op (Point.new 3 5) 'E').set_op
      (Point.new 3 4) 'W').set_op (Point.new 6 4) 'H'

def scenarioCtx : Context := Context.new OpdefTable.default scenarioField

/-- 2×2 field with an `E` whose vacated origin is then the target of an `N`. -/
def cexC3Field : Field :=
  ((Field.new 2 2).set_op (Point.new 0 0) 'E').set_op (Point.new 0 1) 'N'

def cexC3Ctx : Context := Context.new OpdefTable.default cexC3Field

/-- The fold state after the first scan row of `cexC3Ctx`'s tick. -/
def cexC3Mid : Option Context :=
  List.foldlM processCell { cexC3Ctx with field := cexC3Ctx.field.unlock_all }
    [Point.new 0 0, Point.new 1 0]

def w1Field : Field := (Field.new 2 1).set_op (Point.new 0 0) 'E'

def w2Field : Field := (Field.new 1 1).set_op (Point.new 0 0) 'E'

def w3Ctx : Context :=
  Context.new OpdefTable.default
    ((Field.new 1 1).set_slot (Point.new 0 0) { operator := 'E', lock := true })

def w4Field : Field :=
  ((Field.new 1 2).set_op (Point.new 0 0) 'H').set_op (Point.new 0 1) 'N'

def w6Ctx : Context := Context.new OpdefTable.default (Field.new 2 2)

def w7Ctx : Context := Context.new OpdefTable.default (Field.new 1 1)

def w7Res : Context :=
  { opdef_table := OpdefTable.default, field := (Field.new 1 1).unlock_all,
    curr_point := Point.new 0 0, frame_ct := 1 }

def w8Field : Field := (Field.new 1 1).set_op (Point.new 0 0) '*'

def w8Ctx : Context := Context.new OpdefTable.default w8Field

def w8Res : Context :=
  { opdef_table := OpdefTable.default,
    field := bangDef.callback (w8Field.unlock_all) (Point.new 0 0),
    curr_point := Point.new 0 0, frame_ct := 1 }

/-! ### Basic facts about fields and slots -/

@[simp]
theorem Field.ref_slot_set_slot_self (f : Field) (p : Point) (s : Slot) :
    (f.set_slot p s).ref_slot p = s := by
  simp [Field.ref_slot, Field.set_slot]

theorem Field.ref_slot_set_slot_of_ne (f : Field) (p : Point) (s : Slot) {q : Point}
    (h : q ≠ p) : (f.set_slot p s).ref_slot q = f.ref_slot q := by
  simp [Field.ref_slot, Field.set_slot, h]

@[simp] theorem Field.set_slot_width (f : Field) (p : Point) (s : Slot) :
    (f.set_slot p s).width = f.width := rfl

@[simp] theorem Field.set_slot_height (f : Field) (p : Point) (s : Slot) :
    (f.set_slot p s).height = f.height := rfl

@[simp] theorem Field.unlock_all_width (f : Field) : f.unlock_all.width = f.width := rfl

@[simp] theorem Field.unlock_all_height (f : Field) : f.unlock_all.height = f.height := rfl

@[simp] theorem Field.point_in_bounds_set_slot (f : Field) (p : Point) (s : Slot) (q : Point) :
    (f.set_slot p s).point_in_bounds q = f.point_in_bounds q := rfl

@[simp] theorem Field.point_in_bounds_unlock_all (f : Field) (q : Point) :
    f.unlock_all.point_in_bounds q = f.point_in_bounds q := rfl

@[simp] theorem Field.ref_slot_unlock_all (f : Field) (p : Point) :
    f.unlock_all.ref_slot p = { operator := (f.ref_slot p).operator, lock := false } := rfl

theorem Field.point_in_bounds_new_iff (f : Field) (a b : Nat) :
    f.point_in_bounds (Point.new a b) = true ↔ a < f.width ∧ b < f.height := by
  simp only [Field.point_in_bounds, Point.new, Bool.and_eq_true, decide_eq_true_eq]
  omega

theorem Field.point_in_bounds_elim {f : Field} {p : Point}
    (h : f.point_in_bounds p = true) :
    ∃ a b : Nat, p = Point.new a b ∧ a < f.width ∧ b < f.height := by
  obtain ⟨px, py⟩ := p
  simp only [Field.point_in_bounds, Bool.and_eq_true, decide_eq_true_eq] at h
  obtain ⟨⟨⟨h1, h2⟩, h3⟩, h4⟩ := h
  refine ⟨px.toNat, py.toNat, ?_, by omega, by omega⟩
  simp only [Point.new, Point.mk.injEq]
  omega

theorem Point.new_eq_iff {a b c d : Int} :
    Point.new a b = Point.new c d ↔ a = c ∧ b = d := by
  simp [Point.new, Point.mk.injEq]

theorem Point.add_def (a b : Point) :
    a + b = { x := a.x + b.x, y := a.y + b.y } := rfl

theorem Point.new_add_EAST (x y : Nat) : Point.new x y + EAST = Point.new (x + 1) y := by
  simp [Point.add_def, EAST, Point.new, Point.mk.injEq]

theorem Point.new_add_SOUTH (x y : Nat) : Point.new x y + SOUTH = Point.new x (y + 1) := by
  simp [Point.add_def, SOUTH, Point.new, Point.mk.injEq]

/-! ### Single-cell dispatch facts -/

theorem processCell_skip (ctx : Context) (pt : Point)
    (h : (ctx.field.ref_slot pt).is_clear = true ∨ (ctx.field.ref_slot pt).lock = true) :
    processCell ctx pt = some { ctx with curr_point := pt, frame_ct := ctx.frame_ct + 1 } := by
  unfold processCell
  rcases h with h | h
  · simp only [Slot.is_clear, beq_iff_eq] at h
    simp [h]
  · simp [h]

theorem processCell_frame {ctx : Context} {pt : Point} {c' : Context}
    (h : processCell ctx pt = some c') : c'.frame_ct = ctx.frame_ct + 1 := by
  simp only [processCell] at h
  split at h
  · split at h
    · simp at h
    · obtain rfl := (Option.some.injEq _ _).mp h
      rfl
  · obtain rfl := (Option.some.injEq _ _).mp h
    rfl

theorem processCell_none_iff (ctx : Context) (pt : Point) :
    processCell ctx pt = none ↔
      (ctx.field.ref_slot pt).lock = false ∧ (ctx.field.ref_slot pt).operator ≠ '\x00' ∧
        ctx.opdef_table.find (ctx.field.ref_slot pt).operator = none := by
  simp only [processCell]
  by_cases hlk : (ctx.field.ref_slot pt).lock = true
  · simp [hlk]
  · rw [Bool.not_eq_true] at hlk
    by_cases hop : (ctx.field.ref_slot pt).operator = '\x00'
    · simp [hlk, hop]
    · cases hf : ctx.opdef_table.find ((ctx.field.ref_slot pt).operator) <;>
        simp [hlk, hop, hf]

/-! ### Folding the scan over cells that are empty or locked -/

theorem foldlM_skip (l : List Point) (ctx : Context)
    (h : ∀ p ∈ l, (ctx.field.ref_slot p).is_clear = true ∨ (ctx.field.ref_slot p).lock = true) :
    ∃ ctx', List.foldlM processCell ctx l = some ctx' ∧
      ctx'.field = ctx.field ∧ ctx'.opdef_table = ctx.opdef_table ∧
      ctx'.frame_ct = ctx.frame_ct + l.length := by
  induction l generalizing ctx with
  | nil => exact ⟨ctx, by simp [List.foldlM_nil], rfl, rfl, rfl⟩
  | cons p l ih =>
    have hstep := processCell_skip ctx p (h p (by simp))
    obtain ⟨ctx', hfold, hf, ht, hfr⟩ :=
      ih { ctx with curr_point := p, frame_ct := ctx.frame_ct + 1 }
        (fun q hq => h q (by simp [hq]))
    refine ⟨ctx', ?_, hf, ht, ?_⟩
    · rw [List.foldlM_cons, hstep]
      simpa using hfold
    · dsimp only at hfr
      simp only [List.length_cons]
      omega

theorem foldlM_frame (l : List Point) {ctx ctx' : Context}
    (h : List.foldlM processCell ctx l = some ctx') :
    ctx'.frame_ct = ctx.frame_ct + l.length := by
  induction l generalizing ctx with
  | nil =>
    simp only [List.foldlM_nil] at h
    obtain rfl := (Option.some.injEq _ _).mp h
    simp
  | cons p l ih =>
    rw [List.foldlM_cons] at h
    cases hstep : processCell ctx p with
    | none => rw [hstep] at h; simp at h
    | some c1 =>
      rw [hstep] at h
      simp only [Option.bind_eq_bind, Option.some_bind] at h
      have := ih h
      have := processCell_frame hstep
      simp only [List.length_cons]
      omega

/-! ### The row-major scan order -/

theorem length_rowMajorPoints (w h : Nat) : (rowMajorPoints w h).length = w * h := by
  unfold rowMajorPoints rowPts
  rw [List.length_flatMap]
  simp only [Function.comp_def, List.length_map, List.length_range]
  rw [List.map_const', List.length_range, List.sum_replicate, smul_eq_mul]
  exact Nat.mul_comm h w

theorem mem_rowMajorPoints {w h : Nat} {p : Point} :
    p ∈ rowMajorPoints w h ↔ ∃ a b : Nat, a < w ∧ b < h ∧ p = Point.new a b := by
  unfold rowMajorPoints rowPts
  simp only [List.mem_flatMap, List.mem_map, List.mem_range]
  constructor
  · rintro ⟨b, hb, a, ha, rfl⟩
    exact ⟨a, b, ha, hb, rfl⟩
  · rintro ⟨a, b, ha, hb, rfl⟩
    exact ⟨b, hb, a, ha, rfl⟩

theorem rowPts_split (w x y : Nat) (hx : x < w) :
    rowPts w y =
      (List.range x).map (fun (a : Nat) => Point.new a y)
        ++ Point.new x y :: (List.range (w - (x + 1))).map
              (fun (a : Nat) => Point.new (x + 1 + a) y) := by
  unfold rowPts
  conv_lhs => rw [show w = (x + 1) + (w - (x + 1)) by omega, List.range_add]
  rw [List.map_append, List.range_succ, List.map_append, List.map_map]
  simp [Function.comp_def, List.append_assoc]

theorem rowMajorPoints_split (w h x y : Nat) (hx : x < w) (hy : y < h) :
    rowMajorPoints w h = beforePts w x y ++ Point.new x y :: afterPts w h x y := by
  have hrows : rowMajorPoints w h =
      rowMajorPoints w y ++ rowPts w y
        ++ (List.range (h - (y + 1))).flatMap (fun (b : Nat) => rowPts w (y + 1 + b)) := by
    unfold rowMajorPoints
    conv_lhs => rw [show h = (y + 1) + (h - (y + 1)) by omega, List.range_add]
    rw [List.flatMap_append, List.range_succ, List.flatMap_append, List.flatMap_map,
      List.flatMap_singleton]
  rw [hrows, rowPts_split w x y hx]
  unfold beforePts afterPts
  simp [List.append_assoc]

theorem mem_beforePts {w x y : Nat} (hx : x ≤ w) {p : Point}
    (hp : p ∈ beforePts w x y) :
    ∃ a b : Nat, p = Point.new a b ∧ a < w ∧ (b < y ∨ (b = y ∧ a < x)) := by
  unfold beforePts at hp
  rw [List.mem_append] at hp
  rcases hp with hp | hp
  · obtain ⟨a, b, ha, hb, rfl⟩ := mem_rowMajorPoints.mp hp
    exact ⟨a, b, rfl, ha, Or.inl hb⟩
  · simp only [List.mem_map, List.mem_range] at hp
    obtain ⟨a, ha, rfl⟩ := hp
    exact ⟨a, y, rfl, by omega, Or.inr ⟨rfl, ha⟩⟩

theorem mem_afterPts {w h x y : Nat} (hy : y < h) {p : Point}
    (hp : p ∈ afterPts w h x y) :
    ∃ a b : Nat, p = Point.new a b ∧ a < w ∧ b < h ∧ (y < b ∨ (b = y ∧ x < a)) := by
  unfold afterPts at hp
  rw [List.mem_append] at hp
  rcases hp with hp | hp
  · simp only [List.mem_map, List.mem_range] at hp
    obtain ⟨a, ha, rfl⟩ := hp
    exact ⟨x + 1 + a, y, rfl, by omega, hy, Or.inr ⟨rfl, by omega⟩⟩
  · simp only [rowPts, List.mem_flatMap, List.mem_map, List.mem_range] at hp
    obtain ⟨b, hb, a, ha, rfl⟩ := hp
    exact ⟨a, y + 1 + b, rfl, ha, by omega, Or.inl (by omega)⟩

/-! ### Movement characterizations -/

theorem move_direction_collision {f : Field} {curr d : Point}
    (h : f.point_in_bounds (curr + d) = false ∨ (f.ref_slot (curr + d)).is_clear = false) :
    move_direction f curr d = f.set_slot curr { operator := '*', lock := true } := by
  unfold move_direction
  rcases h with h | h <;> simp [h, Slot.explode]

theorem move_direction_success {f : Field} {curr d : Point}
    (h1 : f.point_in_bounds (curr + d) = true)
    (h2 : (f.ref_slot (curr + d)).is_clear = true) :
    move_direction f curr d =
      (f.set_slot (curr + d)
          { operator := (f.ref_slot curr).operator, lock := true }).set_slot curr
        { operator := '\x00', lock := true } := by
  unfold move_direction
  simp [h1, h2, Slot.clear]

theorem move_direction_ref_other {f : Field} {curr d q : Point}
    (h1 : q ≠ curr) (h2 : q ≠ curr + d) :
    (move_direction f curr d).ref_slot q = f.ref_slot q := by
  simp only [move_direction]
  split
  · exact Field.ref_slot_set_slot_of_ne _ _ _ h1
  · rw [Field.ref_slot_set_slot_of_ne _ _ _ h1, Field.ref_slot_set_slot_of_ne _ _ _ h2]

@[simp] theorem move_direction_width (f : Field) (curr d : Point) :
    (move_direction f curr d).width = f.width := by
  simp only [move_direction]
  split <;> rfl

@[simp] theorem move_direction_height (f : Field) (curr d : Point) :
    (move_direction f curr d).height = f.height := by
  simp only [move_direction]
  split <;> rfl

/-! ### The default dispatch table -/

theorem find_default_bang : OpdefTable.default.find '*' = some bangDef := rfl
theorem find_default_east : OpdefTable.default.find 'E' = some eastDef := rfl
theorem find_default_west : OpdefTable.default.find 'W' = some westDef := rfl
theorem find_default_north : OpdefTable.default.find 'N' = some northDef := rfl
theorem find_default_south : OpdefTable.default.find 'S' = some southDef := rfl
theorem find_default_halt : OpdefTable.default.find 'H' = some haltDef := rfl

theorem find_default_cases {c : Char} {opd : Opdef}
    (h : OpdefTable.default.find c = some opd) :
    opd = bangDef ∨ opd = eastDef ∨ opd = westDef ∨ opd = northDef ∨
      opd = southDef ∨ opd = haltDef := by
  have hmem := List.mem_of_find?_eq_some h
  simp only [OpdefTable.default, List.mem_cons, List.not_mem_nil, or_false] at hmem
  exact hmem

/-! ### What the built-in behaviors can write -/

theorem Field.point_in_bounds_congr {f g : Field} (hw : f.width = g.width)
    (hh : f.height = g.height) (q : Point) :
    f.point_in_bounds q = g.point_in_bounds q := by
  simp [Field.point_in_bounds, hw, hh]

theorem default_callback_dims {opd : Opdef}
    (h : opd = bangDef ∨ opd = eastDef ∨ opd = westDef ∨ opd = northDef ∨
      opd = southDef ∨ opd = haltDef) (f : Field) (p : Point) :
    (opd.callback f p).width = f.width ∧ (opd.callback f p).height = f.height := by
  rcases h with rfl | rfl | rfl | rfl | rfl | rfl
  · exact ⟨rfl, rfl⟩
  · exact ⟨move_direction_width f p EAST, move_direction_height f p EAST⟩
  · exact ⟨move_direction_width f p WEST, move_direction_height f p WEST⟩
  · exact ⟨move_direction_width f p NORTH, move_direction_height f p NORTH⟩
  · exact ⟨move_direction_width f p SOUTH, move_direction_height f p SOUTH⟩
  · constructor <;> (simp only [haltDef]; split <;> rfl)

theorem move_direction_ops (f : Field) (curr d q : Point) :
    ((move_direction f curr d).ref_slot q).operator = (f.ref_slot q).operator ∨
      ((move_direction f curr d).ref_slot q).operator = '\x00' ∨
      ((move_direction f curr d).ref_slot q).operator = '*' ∨
      ((move_direction f curr d).ref_slot q).operator = (f.ref_slot curr).operator := by
  simp only [move_direction]
  split
  · by_cases hq : q = curr
    · subst hq
      right; right; left
      simp [Slot.explode]
    · left
      rw [Field.ref_slot_set_slot_of_ne _ _ _ hq]
  · by_cases hq : q = curr
    · subst hq
      right; left
      simp [Slot.clear]
    · rw [Field.ref_slot_set_slot_of_ne _ _ _ hq]
      by_cases hq2 : q = curr + d
      · subst hq2
        right; right; right
        simp
      · left
        rw [Field.ref_slot_set_slot_of_ne _ _ _ hq2]

theorem default_callback_ops {opd : Opdef}
    (h : opd = bangDef ∨ opd = eastDef ∨ opd = westDef ∨ opd = northDef ∨
      opd = southDef ∨ opd = haltDef) (f : Field) (p q : Point) :
    ((opd.callback f p).ref_slot q).operator = (f.ref_slot q).operator ∨
      ((opd.callback f p).ref_slot q).operator = '\x00' ∨
      ((opd.callback f p).ref_slot q).operator = '*' ∨
      ((opd.callback f p).ref_slot q).operator = (f.ref_slot p).operator := by
  rcases h with rfl | rfl | rfl | rfl | rfl | rfl
  · by_cases hq : q = p
    · subst hq
      right; left
      simp [bangDef, Slot.clear]
    · left
      simp only [bangDef]
      rw [Field.ref_slot_set_slot_of_ne _ _ _ hq]
  · exact move_direction_ops f p EAST q
  · exact move_direction_ops f p WEST q
  · exact move_direction_ops f p NORTH q
  · exact move_direction_ops f p SOUTH q
  · simp only [haltDef]
    split
    · by_cases hq : q = p + SOUTH
      · subst hq
        left
        simp
      · left
        rw [Field.ref_slot_set_slot_of_ne _ _ _ hq]
    · left
      rfl

theorem find_default_of_recognized {c : Char} (hc : c ∈ recognizedOps)
    (hne : c ≠ '\x00') : ∃ opd, OpdefTable.default.find c = some opd := by
  simp only [recognizedOps, List.mem_cons, List.not_mem_nil, or_false] at hc
  rcases hc with rfl | rfl | rfl | rfl | rfl | rfl | rfl
  · exact absurd rfl hne
  · exact ⟨bangDef, rfl⟩
  · exact ⟨eastDef, rfl⟩
  · exact ⟨westDef, rfl⟩
  · exact ⟨northDef, rfl⟩
  · exact ⟨southDef, rfl⟩
  · exact ⟨haltDef, rfl⟩

/-! ### The scan preserves the operator-symbol invariant -/

theorem processCell_inv (ctx : Context) (p : Point)
    (htbl : ctx.opdef_table = OpdefTable.default)
    (hp : ctx.field.point_in_bounds p = true)
    (hinv : opInSet ctx.field) :
    ∃ c', processCell ctx p = some c' ∧ c'.opdef_table = ctx.opdef_table ∧
      c'.field.width = ctx.field.width ∧ c'.field.height = ctx.field.height ∧
      opInSet c'.field := by
  by_cases hlk : (ctx.field.ref_slot p).lock = true
  · exact ⟨_, processCell_skip ctx p (Or.inr hlk), rfl, rfl, rfl, hinv⟩
  · by_cases hop : (ctx.field.ref_slot p).operator = '\x00'
    · exact ⟨_, processCell_skip ctx p (Or.inl (by simp [Slot.is_clear, hop])), rfl, rfl,
        rfl, hinv⟩
    · rw [Bool.not_eq_true] at hlk
      obtain ⟨opd, hf⟩ := find_default_of_recognized (hinv p hp) hop
      have hcases := find_default_cases hf
      have hdims := default_callback_dims hcases ctx.field p
      refine ⟨{ opdef_table := ctx.opdef_table, field := opd.callback ctx.field p,
                curr_point := p, frame_ct := ctx.frame_ct + 1 }, ?_, rfl,
              hdims.1, hdims.2, ?_⟩
      · have hbe : ((ctx.field.ref_slot p).operator == '\x00') = false := by
          simp [hop]
        simp [processCell, hlk, htbl, hf, hbe]
      · intro q hq
        rw [Field.point_in_bounds_congr hdims.1 hdims.2 q] at hq
        rcases default_callback_ops hcases ctx.field p q with h | h | h | h
        · rw [h]; exact hinv q hq
        · rw [h]; simp [recognizedOps]
        · rw [h]; simp [recognizedOps]
        · rw [h]; exact hinv p hp

theorem foldlM_inv (l : List Point) (ctx : Context)
    (htbl : ctx.opdef_table = OpdefTable.default)
    (hl : ∀ p ∈ l, ctx.field.point_in_bounds p = true)
    (hinv : opInSet ctx.field) :
    ∃ ctx', List.foldlM processCell ctx l = some ctx' ∧
      ctx'.opdef_table = OpdefTable.default ∧
      ctx'.field.width = ctx.field.width ∧ ctx'.field.height = ctx.field.height ∧
      opInSet ctx'.field := by
  induction l generalizing ctx with
  | nil => exact ⟨ctx, by simp [List.foldlM_nil], htbl, rfl, rfl, hinv⟩
  | cons p l ih =>
    obtain ⟨c1, hstep, ht1, hw1, hh1, hinv1⟩ := processCell_inv ctx p htbl (hl p (by simp)) hinv
    obtain ⟨ctx', hfold, ht', hw', hh', hinv'⟩ := ih c1 (ht1.trans htbl)
      (fun q hq => by rw [Field.point_in_bounds_congr hw1 hh1 q]; exact hl q (by simp [hq]))
      hinv1
    refine ⟨ctx', ?_, ht', hw'.trans hw1, hh'.trans hh1, hinv'⟩
    rw [List.foldlM_cons, hstep]
    simpa using hfold

theorem process_inv (ctx : Context)
    (htbl : ctx.opdef_table = OpdefTable.default)
    (hinv : opInSet ctx.field) :
    ∃ ctx', ctx.process = some ctx' ∧ ctx'.opdef_table = OpdefTable.default ∧
      ctx'.field.width = ctx.field.width ∧ ctx'.field.height = ctx.field.height ∧
      opInSet ctx'.field := by
  obtain ⟨ctx', hfold, ht', hw', hh', hinv'⟩ :=
    foldlM_inv (rowMajorPoints ctx.field.width ctx.field.height)
      { ctx with field := ctx.field.unlock_all } htbl
      (fun p hp => by
        obtain ⟨a, b, ha, hb, rfl⟩ := mem_rowMajorPoints.mp hp
        exact (Field.point_in_bounds_new_iff _ a b).mpr ⟨ha, hb⟩)
      (fun q hq => hinv q hq)
  exact ⟨ctx', hfold, ht', hw', hh', hinv'⟩

/-! ### A tick with a single dispatched cell -/

theorem process_single_dispatch (ctx : Context) (x y : Nat) (f2 : Field)
    (hx : x < ctx.field.width) (hy : y < ctx.field.height)
    (hpre : ∀ a b : Nat, a < ctx.field.width → (b < y ∨ (b = y ∧ a < x)) →
      ((ctx.field.unlock_all).ref_slot (Point.new a b)).is_clear = true)
    (hdisp : ∀ c : Context, c.field = ctx.field.unlock_all →
      c.opdef_table = ctx.opdef_table →
      ∃ c', processCell c (Point.new x y) = some c' ∧ c'.field = f2 ∧
        c'.opdef_table = c.opdef_table)
    (hsuf : ∀ a b : Nat, a < ctx.field.width → b < ctx.field.height →
      (y < b ∨ (b = y ∧ x < a)) →
      (f2.ref_slot (Point.new a b)).is_clear = true ∨
        (f2.ref_slot (Point.new a b)).lock = true) :
    ∃ ctx', ctx.process = some ctx' ∧ ctx'.field = f2 := by
  show ∃ ctx', List.foldlM processCell { ctx with field := ctx.field.unlock_all }
      (rowMajorPoints ctx.field.width ctx.field.height) = some ctx' ∧ ctx'.field = f2
  obtain ⟨c1, hfold1, hf1, ht1, _⟩ :=
    foldlM_skip (beforePts ctx.field.width x y) { ctx with field := ctx.field.unlock_all }
      (by
        intro p hp
        obtain ⟨a, b, rfl, ha, hcond⟩ := mem_beforePts (Nat.le_of_lt hx) hp
        exact Or.inl (hpre a b ha hcond))
  obtain ⟨c2, hstep, hf2, ht2⟩ := hdisp c1 hf1 ht1
  obtain ⟨ctx', hfold3, hf3, _, _⟩ :=
    foldlM_skip (afterPts ctx.field.width ctx.field.height x y) c2
      (by
        intro p hp
        obtain ⟨a, b, rfl, ha, hb, hcond⟩ := mem_afterPts hy hp
        rw [hf2]
        exact hsuf a b ha hb hcond)
  refine ⟨ctx', ?_, hf3.trans hf2⟩
  rw [rowMajorPoints_split ctx.field.width ctx.field.height x y hx hy,
    List.foldlM_append, hfold1]
  simp only [Option.bind_eq_bind, Option.some_bind]
  rw [List.foldlM_cons, hstep]
  simpa using hfold3

/-! ### Claims -/

/-- C1: for a field whose only operator is an `E` at `(x, y)` with `(x+1, y)` in
bounds (hence empty), one `process()` call moves the `E` to `(x+1, y)`, clears
`(x, y)`, and leaves both the vacated and the destination cell locked. -/
theorem movement_into_empty_space (w h x y : Nat) (f : Field)
    (hfw : f.width = w) (hfh : f.height = h)
    (hx : x + 1 < w) (hy : y < h)
    (hE : (f.ref_slot (Point.new x y)).operator = 'E')
    (honly : ∀ p : Point, f.point_in_bounds p = true → p ≠ Point.new x y →
      (f.ref_slot p).operator = '\x00') :
    ∃ ctx', (Context.new OpdefTable.default f).process = some ctx' ∧
      ctx'.field.ref_slot (Point.new (x + 1) y) = { operator := 'E', lock := true } ∧
      ctx'.field.ref_slot (Point.new x y) = { operator := '\x00', lock := true } := by
  subst hfw hfh
  have hnn : Point.new (x + 1) y ≠ Point.new x y := by
    intro heq
    rw [Point.new_eq_iff] at heq
    omega
  have hbn : f.point_in_bounds (Point.new (x + 1) y) = true :=
    (Field.point_in_bounds_new_iff f (x + 1) y).mpr ⟨hx, hy⟩
  have hclear_next : (f.ref_slot (Point.new (x + 1) y)).operator = '\x00' :=
    honly _ hbn hnn
  have hpre : ∀ a b : Nat, a < f.width → (b < y ∨ (b = y ∧ a < x)) →
      ((f.unlock_all).ref_slot (Point.new a b)).is_clear = true := by
    intro a b ha hcond
    have hbb : b < f.height := by omega
    have hne : Point.new a b ≠ Point.new x y := by
      intro heq
      rw [Point.new_eq_iff] at heq
      omega
    have hop := honly (Point.new a b)
      ((Field.point_in_bounds_new_iff f a b).mpr ⟨ha, hbb⟩) hne
    simp [Slot.is_clear, hop]
  have hdisp : ∀ c : Context, c.field = f.unlock_all →
      c.opdef_table = (Context.new OpdefTable.default f).opdef_table →
      ∃ c', processCell c (Point.new x y) = some c' ∧
        c'.field = (f.unlock_all.set_slot (Point.new (x + 1) y)
            { operator := 'E', lock := true }).set_slot (Point.new x y)
          { operator := '\x00', lock := true } ∧
        c'.opdef_table = c.opdef_table := by
    intro c hcf hct
    have href : c.field.ref_slot (Point.new x y) = { operator := 'E', lock := false } := by
      rw [hcf, Field.ref_slot_unlock_all, hE]
    have hmv : move_direction c.field (Point.new x y) EAST =
        (f.unlock_all.set_slot (Point.new (x + 1) y)
            { operator := 'E', lock := true }).set_slot (Point.new x y)
          { operator := '\x00', lock := true } := by
      rw [hcf]
      have h1 : (f.unlock_all).point_in_bounds (Point.new x y + EAST) = true := by
        rw [Point.new_add_EAST, Field.point_in_bounds_unlock_all]
        exact hbn
      have h2 : ((f.unlock_all).ref_slot (Point.new x y + EAST)).is_clear = true := by
        rw [Point.new_add_EAST]
        simp [Slot.is_clear, hclear_next]
      rw [move_direction_success h1 h2, Point.new_add_EAST]
      simp only [Field.ref_slot_unlock_all]
      rw [hE]
    refine ⟨{ opdef_table := c.opdef_table,
              field := (f.unlock_all.set_slot (Point.new (x + 1) y)
                  { operator := 'E', lock := true }).set_slot (Point.new x y)
                { operator := '\x00', lock := true },
              curr_point := Point.new x y, frame_ct := c.frame_ct + 1 }, ?_, rfl, rfl⟩
    simp only [processCell]
    simp +decide [href, hct, Context.new, find_default_east, eastDef, hmv]
  have hsuf : ∀ a b : Nat, a < f.width → b < f.height → (y < b ∨ (b = y ∧ x < a)) →
      ((((f.unlock_all.set_slot (Point.new (x + 1) y)
            { operator := 'E', lock := true }).set_slot (Point.new x y)
          { operator := '\x00', lock := true })).ref_slot (Point.new a b)).is_clear = true ∨
      ((((f.unlock_all.set_slot (Point.new (x + 1) y)
            { operator := 'E', lock := true }).set_slot (Point.new x y)
          { operator := '\x00', lock := true })).ref_slot (Point.new a b)).lock = true := by
    intro a b ha hb hcond
    by_cases hq2 : Point.new a b = Point.new (x + 1) y
    · right
      rw [hq2, Field.ref_slot_set_slot_of_ne _ _ _ hnn, Field.ref_slot_set_slot_self]
    · left
      have hne1 : Point.new a b ≠ Point.new x y := by
        intro heq
        rw [Point.new_eq_iff] at heq
        omega
      rw [Field.ref_slot_set_slot_of_ne _ _ _ hne1,
        Field.ref_slot_set_slot_of_ne _ _ _ hq2]
      have hop := honly (Point.new a b) ((Field.point_in_bounds_new_iff f a b).mpr ⟨ha, hb⟩) hne1
      simp [Slot.is_clear, hop]
  obtain ⟨ctx', hproc, hfield⟩ :=
    process_single_dispatch (Context.new OpdefTable.default f) x y
      ((f.unlock_all.set_slot (Point.new (x + 1) y)
          { operator := 'E', lock := true }).set_slot (Point.new x y)
        { operator := '\x00', lock := true })
      (by show x < f.width; omega) hy hpre hdisp hsuf
  refine ⟨ctx', hproc, ?_, ?_⟩
  · rw [hfield, Field.ref_slot_set_slot_of_ne _ _ _ hnn, Field.ref_slot_set_slot_self]
  · rw [hfield, Field.ref_slot_set_slot_self]

/-- C1 witness: the general theorem instantiated on a concrete 2×1 field
holding a single `E` at the origin. -/
theorem movement_into_empty_space_witness :
    ∃ ctx', (Context.new OpdefTable.default w1Field).process = some ctx' ∧
      ctx'.field.ref_slot (Point.new (0 + 1) 0) = { operator := 'E', lock := true } ∧
      ctx'.field.ref_slot (Point.new 0 0) = { operator := '\x00', lock := true } :=
  movement_into_empty_space 2 1 0 0 w1Field rfl rfl (by decide) (by decide) (by decide)
    (by
      intro p hin hne
      have hne' : p ≠ Point.new 0 0 := by simpa using hne
      simp only [w1Field, Field.set_op]
      rw [Field.ref_slot_set_slot_of_ne _ _ _ hne']
      rfl)

/-- C2: whenever a direction operator's target is out of bounds or occupied,
the mover's own slot becomes `'*'` and locked, and every other slot — the
obstacle's in particular — is untouched. -/
theorem movement_collision_destroys_mover (f : Field) (curr d : Point)
    (hd : d = EAST ∨ d = WEST ∨ d = NORTH ∨ d = SOUTH)
    (hcol : f.point_in_bounds (curr + d) = false ∨
      (f.ref_slot (curr + d)).is_clear = false) :
    (move_direction f curr d).ref_slot curr = { operator := '*', lock := true } ∧
      (move_direction f curr d).ref_slot (curr + d) = f.ref_slot (curr + d) ∧
      ∀ q : Point, q ≠ curr → (move_direction f curr d).ref_slot q = f.ref_slot q := by
  have hne : curr + d ≠ curr := by
    rcases hd with rfl | rfl | rfl | rfl <;>
      · intro heq
        have hxc := congrArg Point.x heq
        have hyc := congrArg Point.y heq
        simp only [Point.add_def, EAST, WEST, NORTH, SOUTH] at hxc hyc
        omega
  refine ⟨?_, ?_, ?_⟩
  · rw [move_direction_collision hcol, Field.ref_slot_set_slot_self]
  · rw [move_direction_collision hcol, Field.ref_slot_set_slot_of_ne _ _ _ hne]
  · intro q hq
    rw [move_direction_collision hcol, Field.ref_slot_set_slot_of_ne _ _ _ hq]

/-- C2 witness: an `E` on a 1×1 field has its east target out of bounds and
explodes in place. -/
theorem movement_collision_destroys_mover_witness :
    (move_direction w2Field (Point.new 0 0) EAST).ref_slot (Point.new 0 0) =
        { operator := '*', lock := true } ∧
      (move_direction w2Field (Point.new 0 0) EAST).ref_slot (Point.new 0 0 + EAST) =
        w2Field.ref_slot (Point.new 0 0 + EAST) ∧
      ∀ q : Point, q ≠ Point.new 0 0 →
        (move_direction w2Field (Point.new 0 0) EAST).ref_slot q = w2Field.ref_slot q :=
  movement_collision_destroys_mover w2Field (Point.new 0 0) EAST (Or.inl rfl)
    (Or.inl (by decide))

/-- C3 counterexample: on a 2×2 field with `E` at (0,0) and `N` at (0,1), the
tick first vacates and locks (0,0); dispatching (0,1) later in the same pass
then moves the `N` into the locked cell (0,0), so a locked cell is used as a
movement destination within one tick. -/
theorem lock_used_as_target_cex :
    rowMajorPoints 2 2 = [Point.new 0 0, Point.new 1 0, Point.new 0 1, Point.new 1 1] ∧
      cexC3Mid.map (fun c => c.field.ref_slot (Point.new 0 0)) =
        some { operator := '\x00', lock := true } ∧
      (cexC3Mid.bind (fun c => processCell c (Point.new 0 1))).map
          (fun c => c.field.ref_slot (Point.new 0 0)) =
        some { operator := 'N', lock := true } ∧
      (cexC3Ctx.process).map
          (fun c => (c.field.ref_slot (Point.new 0 0), c.field.ref_slot (Point.new 0 1))) =
        some ({ operator := 'N', lock := true }, { operator := '\x00', lock := true }) := by
  exact ⟨by decide, by decide, by decide, by decide⟩

/-- C3 (amended): the lock prevents a cell from being dispatched again within
the tick, but movement destinations are only tested for emptiness
(`is_clear`): a locked, occupied cell is protected merely because it is
occupied, while a locked empty cell — such as a freshly vacated origin — is a
valid movement destination for an operator dispatched later in the same pass. -/
theorem lock_blocks_dispatch_not_targets :
    (∀ (ctx : Context) (pt : Point), (ctx.field.ref_slot pt).lock = true →
        processCell ctx pt =
          some { ctx with curr_point := pt, frame_ct := ctx.frame_ct + 1 }) ∧
      (∀ (f : Field) (curr d : Point), f.point_in_bounds (curr + d) = true →
        (f.ref_slot (curr + d)).is_clear = true →
        move_direction f curr d =
          (f.set_slot (curr + d)
              { operator := (f.ref_slot curr).operator, lock := true }).set_slot curr
            { operator := '\x00', lock := true }) :=
  ⟨fun ctx pt h => processCell_skip ctx pt (Or.inr h),
    fun _ _ _ h1 h2 => move_direction_success h1 h2⟩

/-- C3 witness: a locked occupied slot is skipped by dispatch. -/
theorem lock_blocks_dispatch_not_targets_witness :
    processCell w3Ctx (Point.new 0 0) =
      some { w3Ctx with curr_point := Point.new 0 0, frame_ct := w3Ctx.frame_ct + 1 } :=
  lock_blocks_dispatch_not_targets.1 w3Ctx (Point.new 0 0) (by decide)

/-- C9 counterexample: decoding the character with code point 256 — which is
not in the alphabet — fails (out-of-bounds index into the 256-entry decode
table), so decode is not total on non-alphabet characters. -/
theorem decode_nonlatin_fails_cex :
    decode_base64 (Char.ofNat 256) = none ∧ (Char.ofNat 256) ∉ ENCODE_TABLE :=
  ⟨rfl, by decide⟩

/-- C9 (amended): encoding fails exactly for values at or above the alphabet
size 64; decoding a character outside the alphabet yields the default value 0
when its code point is below 256, and fails for code points at or above 256
(out-of-bounds index into the 256-entry table). -/
theorem codec_encode_decode_asymmetry :
    (∀ n : Nat, encode_base64 n = none ↔ 64 ≤ n) ∧
      (∀ ch : Char, ch.toNat < 256 → ch ∉ ENCODE_TABLE → decode_base64 ch = some 0) ∧
      (∀ ch : Char, 256 ≤ ch.toNat → decode_base64 ch = none) := by
  refine ⟨?_, ?_, ?_⟩
  · intro n
    have hlen : ENCODE_TABLE.length = 64 := by decide
    unfold encode_base64
    rw [hlen]
    by_cases h : 64 ≤ n
    · simp [h]
    · simp [h]
  · intro ch hlt hmem
    unfold decode_base64
    rw [if_pos hlt]
    have key : ∀ m : Fin 256, DECODE_TABLE m.val = 0 ∨ Char.ofNat m.val ∈ ENCODE_TABLE := by
      decide
    rcases key ⟨ch.toNat, hlt⟩ with h | h
    · rw [h]
    · rw [Char.ofNat_toNat] at h
      exact absurd h hmem
  · intro ch h
    unfold decode_base64
    rw [if_neg (by omega)]

/-- C9 witness: `'~'` (code 126) is not in the alphabet and decodes to 0. -/
theorem codec_encode_decode_asymmetry_witness :
    decode_base64 '~' = some 0 :=
  codec_encode_decode_asymmetry.2.1 '~' (by decide) (by decide)

/-- C10: a direction-operator dispatch at `p` with target `p + d` modifies at
most the slots at `p` and `p + d`; every other slot is unchanged. -/
theorem move_direction_frame_effect (f : Field) (curr d q : Point)
    (_hd : d = EAST ∨ d = WEST ∨ d = NORTH ∨ d = SOUTH)
    (_hcurr : f.point_in_bounds curr = true)
    (hq1 : q ≠ curr) (hq2 : q ≠ curr + d) :
    (move_direction f curr d).ref_slot q = f.ref_slot q :=
  move_direction_ref_other hq1 hq2

/-- C10 witness: moving north from (0,0) on the 1×1 `E` field leaves (1,0)
untouched. -/
theorem move_direction_frame_effect_witness :
    (move_direction w2Field (Point.new 0 0) NORTH).ref_slot (Point.new 1 0) =
      w2Field.ref_slot (Point.new 1 0) :=
  move_direction_frame_effect w2Field (Point.new 0 0) NORTH (Point.new 1 0)
    (Or.inr (Or.inr (Or.inl rfl))) (by decide) (by decide) (by decide)

/-- C4: for a field whose only operators are an `H` at `(x, y)` and an
arbitrary symbol `c` at `(x, y+1)` (in bounds), one `process()` call locks
`(x, y+1)` while leaving its symbol unchanged — even when `c` is an operator
that would otherwise have been dispatched — and leaves the `H` cell itself
unmoved and unmodified; moreover a halt dispatch whose southern neighbor is
out of bounds modifies no slot at all. -/
theorem halt_operator (w h x y : Nat) (c : Char) (f : Field)
    (hfw : f.width = w) (hfh : f.height = h)
    (hx : x < w) (hy : y + 1 < h)
    (hH : (f.ref_slot (Point.new x y)).operator = 'H')
    (hc : (f.ref_slot (Point.new x (y + 1))).operator = c)
    (honly : ∀ p : Point, f.point_in_bounds p = true → p ≠ Point.new x y →
      p ≠ Point.new x (y + 1) → (f.ref_slot p).operator = '\x00') :
    (∃ ctx', (Context.new OpdefTable.default f).process = some ctx' ∧
      ctx'.field.ref_slot (Point.new x y) = { operator := 'H', lock := false } ∧
      ctx'.field.ref_slot (Point.new x (y + 1)) = { operator := c, lock := true }) ∧
    (∀ (g : Field) (p : Point), g.point_in_bounds (p + SOUTH) = false →
      haltDef.callback g p = g) := by
  refine ⟨?_, fun g p hb => by simp [haltDef, hb]⟩
  subst hfw hfh
  have hnn : Point.new x (y + 1) ≠ Point.new x y := by
    intro heq
    rw [Point.new_eq_iff] at heq
    omega
  have hbin : (f.unlock_all).point_in_bounds (Point.new x (y + 1)) = true := by
    rw [Field.point_in_bounds_unlock_all]
    exact (Field.point_in_bounds_new_iff f x (y + 1)).mpr ⟨hx, hy⟩
  have hpre : ∀ a b : Nat, a < f.width → (b < y ∨ (b = y ∧ a < x)) →
      ((f.unlock_all).ref_slot (Point.new a b)).is_clear = true := by
    intro a b ha hcond
    have hbb : b < f.height := by omega
    have hne1 : Point.new a b ≠ Point.new x y := by
      intro heq
      rw [Point.new_eq_iff] at heq
      omega
    have hne2 : Point.new a b ≠ Point.new x (y + 1) := by
      intro heq
      rw [Point.new_eq_iff] at heq
      omega
    have hop := honly (Point.new a b)
      ((Field.point_in_bounds_new_iff f a b).mpr ⟨ha, hbb⟩) hne1 hne2
    simp [Slot.is_clear, hop]
  have hdisp : ∀ c0 : Context, c0.field = f.unlock_all →
      c0.opdef_table = (Context.new OpdefTable.default f).opdef_table →
      ∃ c', processCell c0 (Point.new x y) = some c' ∧
        c'.field = f.unlock_all.set_slot (Point.new x (y + 1))
          { operator := c, lock := true } ∧
        c'.opdef_table = c0.opdef_table := by
    intro c0 hcf hct
    have href : c0.field.ref_slot (Point.new x y) = { operator := 'H', lock := false } := by
      rw [hcf, Field.ref_slot_unlock_all, hH]
    have hhc : haltDef.callback c0.field (Point.new x y) =
        f.unlock_all.set_slot (Point.new x (y + 1)) { operator := c, lock := true } := by
      rw [hcf]
      simp only [haltDef, Point.new_add_SOUTH, hbin, if_true]
      simp only [Field.ref_slot_unlock_all, hc]
    refine ⟨{ opdef_table := c0.opdef_table,
              field := f.unlock_all.set_slot (Point.new x (y + 1))
                { operator := c, lock := true },
              curr_point := Point.new x y, frame_ct := c0.frame_ct + 1 }, ?_, rfl, rfl⟩
    simp only [processCell]
    simp +decide [href, hct, Context.new, find_default_halt, hhc]
  have hsuf : ∀ a b : Nat, a < f.width → b < f.height → (y < b ∨ (b = y ∧ x < a)) →
      (((f.unlock_all.set_slot (Point.new x (y + 1))
          { operator := c, lock := true })).ref_slot (Point.new a b)).is_clear = true ∨
      (((f.unlock_all.set_slot (Point.new x (y + 1))
          { operator := c, lock := true })).ref_slot (Point.new a b)).lock = true := by
    intro a b ha hb hcond
    by_cases hq : Point.new a b = Point.new x (y + 1)
    · right
      rw [hq, Field.ref_slot_set_slot_self]
    · left
      have hne1 : Point.new a b ≠ Point.new x y := by
        intro heq
        rw [Point.new_eq_iff] at heq
        omega
      rw [Field.ref_slot_set_slot_of_ne _ _ _ hq]
      have hop := honly (Point.new a b)
        ((Field.point_in_bounds_new_iff f a b).mpr ⟨ha, hb⟩) hne1 hq
      simp [Slot.is_clear, hop]
  obtain ⟨ctx', hproc, hfield⟩ :=
    process_single_dispatch (Context.new OpdefTable.default f) x y
      (f.unlock_all.set_slot (Point.new x (y + 1)) { operator := c, lock := true })
      (by show x < f.width; omega) (by show y < f.height; omega) hpre hdisp hsuf
  refine ⟨ctx', hproc, ?_, ?_⟩
  · rw [hfield, Field.ref_slot_set_slot_of_ne _ _ _ (Ne.symm hnn), Field.ref_slot_unlock_all, hH]
  · rw [hfield, Field.ref_slot_set_slot_self]

/-- C4 witness: a 1×2 field with `H` at (0,0) over an `N` at (0,1): the `N`
stays put and locked after the tick, the `H` is untouched. -/
theorem halt_operator_witness :
    (∃ ctx', (Context.new OpdefTable.default w4Field).process = some ctx' ∧
      ctx'.field.ref_slot (Point.new 0 0) = { operator := 'H', lock := false } ∧
      ctx'.field.ref_slot (Point.new 0 1) = { operator := 'N', lock := true }) ∧
    (∀ (g : Field) (p : Point), g.point_in_bounds (p + SOUTH) = false →
      haltDef.callback g p = g) :=
  halt_operator 1 2 0 0 'N' w4Field rfl rfl (by decide) (by decide) (by decide) (by decide)
    (by
      intro p hin h1 h2
      have h1' : p ≠ Point.new 0 0 := by simpa using h1
      have h2' : p ≠ Point.new 0 1 := by simpa using h2
      simp only [w4Field, Field.set_op]
      rw [Field.ref_slot_set_slot_of_ne _ _ _ h2', Field.ref_slot_set_slot_of_ne _ _ _ h1']
      rfl)

/-- C5: on the 10×15 field seeded by `main` (`*`@(0,0), `E`@(3,3), `E`@(3,5),
`W`@(3,4), `H`@(6,4)), one `process()` call yields: `E`@(4,3) locked with
(3,3) emptied and locked, `E`@(4,5) locked with (3,5) emptied and locked,
`W`@(2,4) locked with (3,4) emptied and locked, `H`@(6,4) unchanged, (6,5)
locked with its (empty) operator unchanged, and (0,0) cleared and locked. -/
theorem scenario_after_one_tick :
    (scenarioCtx.process).map
        (fun c =>
          (c.field.ref_slot (Point.new 4 3), c.field.ref_slot (Point.new 3 3),
           c.field.ref_slot (Point.new 4 5), c.field.ref_slot (Point.new 3 5),
           c.field.ref_slot (Point.new 2 4), c.field.ref_slot (Point.new 3 4),
           c.field.ref_slot (Point.new 6 4), c.field.ref_slot (Point.new 6 5),
           c.field.ref_slot (Point.new 0 0))) =
      some ({ operator := 'E', lock := true }, { operator := '\x00', lock := true },
            { operator := 'E', lock := true }, { operator := '\x00', lock := true },
            { operator := 'W', lock := true }, { operator := '\x00', lock := true },
            { operator := 'H', lock := false }, { operator := '\x00', lock := true },
            { operator := '\x00', lock := true }) := by
  rfl

/-- C6: dispatch fails (aborts the run) exactly on an occupied, unlocked slot
whose symbol has no table entry; all six built-in symbols are registered, and
a tick over a field whose occupied slots all hold recognized symbols
completes without failure. -/
theorem unknown_operator_is_fatal :
    (∀ (ctx : Context) (pt : Point),
        processCell ctx pt = none ↔
          (ctx.field.ref_slot pt).lock = false ∧
            (ctx.field.ref_slot pt).operator ≠ '\x00' ∧
            ctx.opdef_table.find (ctx.field.ref_slot pt).operator = none) ∧
      ((OpdefTable.default.find '*').isSome = true ∧
        (OpdefTable.default.find 'E').isSome = true ∧
        (OpdefTable.default.find 'W').isSome = true ∧
        (OpdefTable.default.find 'N').isSome = true ∧
        (OpdefTable.default.find 'S').isSome = true ∧
        (OpdefTable.default.find 'H').isSome = true) ∧
      (∀ ctx : Context, ctx.opdef_table = OpdefTable.default → 0 < ctx.field.width →
        opInSet ctx.field → ∃ ctx', ctx.process = some ctx') := by
  refine ⟨processCell_none_iff, ⟨rfl, rfl, rfl, rfl, rfl, rfl⟩, ?_⟩
  intro ctx htbl _hw hinv
  obtain ⟨ctx', h, _, _, _, _⟩ := process_inv ctx htbl hinv
  exact ⟨ctx', h⟩

/-- C6 witness: a tick over an all-empty 1×1 field completes. -/
theorem unknown_operator_is_fatal_witness :
    ∃ ctx', w6Ctx.process = some ctx' :=
  unknown_operator_is_fatal.2.2 w6Ctx rfl (by decide)
    (fun _p _hp => by exact (by decide : ('\x00' : Char) ∈ recognizedOps))

/-- C7: a completed `process()` call increments the frame counter exactly
`width * height` times — once per visited slot, dispatched or not. -/
theorem frame_counter_per_cell (ctx ctx' : Context) (_hw : 0 < ctx.field.width)
    (hproc : ctx.process = some ctx') :
    ctx'.frame_ct = ctx.frame_ct + ctx.field.width * ctx.field.height := by
  have hfold : List.foldlM processCell { ctx with field := ctx.field.unlock_all }
      (rowMajorPoints ctx.field.width ctx.field.height) = some ctx' := hproc
  have h := foldlM_frame _ hfold
  rw [length_rowMajorPoints] at h
  exact h

/-- C7 witness: one tick over an empty 1×1 field bumps the counter by 1. -/
theorem frame_counter_per_cell_witness :
    w7Res.frame_ct = w7Ctx.frame_ct + w7Ctx.field.width * w7Ctx.field.height :=
  frame_counter_per_cell w7Ctx w7Res (by decide) rfl

/-- C8: if every in-bounds slot's operator is the empty sentinel or one of
the six recognized symbols before `process()`, the same holds after it
returns. -/
theorem operator_symbols_preserved (ctx ctx' : Context)
    (htbl : ctx.opdef_table = OpdefTable.default)
    (hinv : opInSet ctx.field)
    (hproc : ctx.process = some ctx') :
    opInSet ctx'.field := by
  obtain ⟨c'', hfold, _, _, _, hinv''⟩ := process_inv ctx htbl hinv
  rw [hproc] at hfold
  obtain rfl := (Option.some.injEq _ _).mp hfold
  exact hinv''

/-- C8 witness: a 1×1 field holding `*` keeps the invariant across the tick. -/
theorem operator_symbols_preserved_witness :
    opInSet w8Res.field :=
  operator_symbols_preserved w8Ctx w8Res rfl
    (by
      intro p _hp
      by_cases hp0 : p = Point.new 0 0
      · subst hp0
        decide
      · have href : w8Ctx.field.ref_slot p = Slot.default := by
          simp only [w8Ctx, w8Field, Context.new, Field.set_op]
          rw [Field.ref_slot_set_slot_of_ne _ _ _ hp0]
          rfl
        rw [href]
        decide)
    rfl

end Lyza
